import Mathlib

/-!
Verification of the archive worker (src/worker.js).

Shallow embedding conventions:
- JavaScript strings are modelled as `List Char` (`Str`); `String.prototype.trim`
  is modelled with `Char.isWhitespace`, which agrees with the JavaScript
  definition on every character that occurs in the development.
- Asynchronous HTTP effects are modelled by passing their observable results
  explicitly: the GitHub-backed file is an `Option Str` (absent or its bytes),
  and each Telegram `fetch` outcome is an `Except String Unit` oracle.
- Fallible operations return `Option`/`Except`.
All definitions are computable and follow the JavaScript source line by line.
-/

set_option maxRecDepth 4000

abbrev Str := List Char

/-- `s.trim()` from the left: drop leading whitespace. -/
def trimL (s : Str) : Str := s.dropWhile Char.isWhitespace

/-- `s.trimEnd()`: drop trailing whitespace. -/
def trimR (s : Str) : Str := (trimL s.reverse).reverse

/-- JavaScript `s.trim()`: drop whitespace from both ends. -/
def trim (s : Str) : Str := trimL (trimR s)

/-- Lowercasing, as `s.toLowerCase()` acts on the ASCII data in this file. -/
def toLowerStr (s : Str) : Str := s.map Char.toLower

/-- Does `pat` occur at the start of `s`? Helper for `containsSub`. -/
def startsWithL : Str → Str → Bool
  | [], _ => true
  | _ :: _, [] => false
  | p :: ps, c :: cs => p == c && startsWithL ps cs

/-- JavaScript `s.includes(pat)`: substring occurrence test. -/
def containsSub : Str → Str → Bool
  | [], pat => startsWithL pat []
  | s@(_ :: rest), pat => startsWithL pat s || containsSub rest pat

/-- `content.split('\n')`: split into lines at every newline. -/
def splitNl : Str → List Str
  | [] => [[]]
  | c :: cs =>
    if c = '\n' then [] :: splitNl cs
    else
      match splitNl cs with
      | [] => [[c]]
      | s :: ss => (c :: s) :: ss

/-- `content.indexOf('\n') !== -1`. -/
def hasNl (s : Str) : Bool := s.any (fun ch => ch == '\n')

/-- `content.substring(0, content.indexOf('\n'))` when a newline exists. -/
def firstLineOf (s : Str) : Str := s.takeWhile (fun ch => ch != '\n')

/-!
`StreamingGitHubCSVManager.parseCSVLine` (src/worker.js:287-313).
The JavaScript loop walks the line with an `inQuotes` flag; a `""` inside
quotes emits a literal quote, a `,` outside quotes ends the field, every
pushed field is trimmed.  The loop index advances by 1 or 2, which the
embedding realises by matching one or two list cells, keeping the recursion
structural.
-/
def parseAux : Str → Bool → Str → List Str
  | [], _, cur => [trim cur]
  | [c], inQ, cur =>
    if c = '"' then [trim cur]
    else if c = ',' ∧ inQ = false then [trim cur, []]
    else [trim (cur ++ [c])]
  | c1 :: c2 :: rest, inQ, cur =>
    if c1 = '"' then
      if inQ then
        if c2 = '"' then parseAux rest true (cur ++ ['"'])
        else parseAux (c2 :: rest) false cur
      else parseAux (c2 :: rest) true cur
    else if c1 = ',' ∧ inQ = false then trim cur :: parseAux (c2 :: rest) false []
    else parseAux (c2 :: rest) inQ (cur ++ [c1])

/-- `parseCSVLine(line)` (src/worker.js:287-313). -/
def parseCSVLine (line : Str) : List Str := parseAux line false []

/-- `str.replace(/"/g, '""')` used by `escapeCSV`. -/
def escQuote : Str → Str
  | [] => []
  | c :: cs => if c = '"' then '"' :: '"' :: escQuote cs else c :: escQuote cs

/-- `escapeCSV(field)` (src/worker.js:425-431): quote-wrap exactly when the
field includes a delimiter, a quote or a newline. -/
def escapeCSV (s : Str) : Str :=
  if ',' ∈ s ∨ '"' ∈ s ∨ '\n' ∈ s then
    '"' :: (escQuote s ++ ['"'])
  else s

/-- One archive record, in the order its fields appear in a CSV row:
`numerical_file_id,file_id,file_name,file_type`. -/
structure CsvRecord where
  nid : Str
  fid : Str
  name : Str
  ftype : Str
deriving DecidableEq

/-- The CSV row appended for a record (src/worker.js:373,378). -/
def rowOf (r : CsvRecord) : Str :=
  r.nid ++ ',' :: (r.fid ++ ',' :: (escapeCSV r.name ++ ',' :: r.ftype))

/-- The header line written when the file is created (src/worker.js:373). -/
def headerLine : Str := ("numerical_file_id,file_id,file_name,file_type").toList

/-- The token `findFileByIdStreaming` looks for when skipping the header. -/
def numericalTok : Str := ("numerical").toList

/-- The second token `getFileCount` looks for in the first line,
also the literal second field of the header row. -/
def fileIdTok : Str := ("file_id").toList

/-- The literal third field of the header row. -/
def hdrNameTok : Str := ("file_name").toList

/-!
The remote GitHub store (claim C8).  The file at the worker path is the
state `st : Option Str`; `getFileInfo` is the metadata probe of the Contents
API, whose reported `size` is the byte length of the stored content and
whose `sha` addresses the immutable blob of that content.
-/

/-- `GITHUB_SIZE_LIMIT` (src/worker.js:164): 1 MiB. -/
def GITHUB_SIZE_LIMIT : Nat := 1048576

/-- The content hash the API reports for stored bytes.  Content addressing is
modelled by keying blobs by the bytes themselves. -/
def shaOf (c : Str) : Str := c

/-- Result shape of `getFileInfo` (src/worker.js:167-206). -/
structure GitFileInfo where
  fileExists : Bool
  sha : Option Str
  size : Nat
  isLarge : Bool
deriving DecidableEq

/-- `getFileInfo()` (src/worker.js:167-206): metadata-only existence probe;
`isLarge` is `size > GITHUB_SIZE_LIMIT`. -/
def getFileInfo (st : Option Str) : GitFileInfo :=
  match st with
  | none => ⟨false, none, 0, false⟩
  | some c => ⟨true, some (shaOf c), c.length, decide (GITHUB_SIZE_LIMIT < c.length)⟩

/-- The Git Data blob endpoint: fetch by content hash. -/
def fetchBlob (st : Option Str) (sha : Str) : Option Str :=
  match st with
  | none => none
  | some c => if shaOf c = sha then some c else none

/-- `downloadLargeFile()` (src/worker.js:208-227): re-probe, then fetch the
blob by the probed sha and base64-decode it. -/
def downloadLargeFile (st : Option Str) : Option Str :=
  let fi := getFileInfo st
  if fi.fileExists = false then none
  else
    match fi.sha with
    | some sha => fetchBlob st sha
    | none => none

/-- The direct Contents-API read used for small files: `atob(fileData.content)`. -/
def fetchContentsApi (st : Option Str) : Option Str := st

/-- `getFileContent()` (src/worker.js:229-252): probe, then route by `isLarge`. -/
def getFileContent (st : Option Str) : Option Str :=
  let fi := getFileInfo st
  if fi.fileExists = false then none
  else if fi.isLarge then downloadLargeFile st
  else fetchContentsApi st

/-- The two retrieval routes of `getFileContent`. -/
inductive FetchRoute
  | contentsApi
  | gitBlob
deriving DecidableEq

/-- The route `getFileContent` selects, observably: mirrors its branch
structure without performing the fetch. -/
def routeOf (st : Option Str) : Option FetchRoute :=
  let fi := getFileInfo st
  if fi.fileExists = false then none
  else if fi.isLarge then some FetchRoute.gitBlob
  else some FetchRoute.contentsApi

/-!
Record-store scans (src/worker.js:254-367).  Each operation first reads the
whole file through `getFileContent`; a missing file or an empty string is
treated as no content (`if (!content)`).
-/

/-- Result shape of `findFileByIdStreaming`. -/
structure FoundFile where
  file_id : Str
  file_name : Str
  file_type : Str
deriving DecidableEq

/-- `parsedLine[i] || 'Unknown'`: the empty string is falsy in JavaScript. -/
def orUnknown (s : Str) : Str := if s = [] then ("Unknown").toList else s

/-- The line loop of `findFileByIdStreaming` (src/worker.js:263-279):
trim the line, skip blanks, skip the first line containing `numerical`
(case-insensitively) while the header has not been skipped yet, otherwise
parse and compare field 0 with the requested id. -/
def findLoop (id : Str) : List Str → Bool → Option FoundFile
  | [], _ => none
  | l :: ls, hs =>
    let line := trim l
    if line = [] then findLoop id ls hs
    else if !hs && containsSub (toLowerStr line) numericalTok then findLoop id ls true
    else
      let p := parseCSVLine line
      if 4 ≤ p.length ∧ p.getD 0 [] = id then
        some ⟨p.getD 1 [], orUnknown (p.getD 2 []), orUnknown (p.getD 3 [])⟩
      else findLoop id ls hs

/-- `findFileByIdStreaming(numericalFileId)` (src/worker.js:254-285). -/
def findFileByIdStreaming (st : Option Str) (id : Str) : Option FoundFile :=
  match getFileContent st with
  | none => none
  | some c => if c = [] then none else findLoop id (splitNl c) false

/-- Result shape of `checkForDuplicate`. -/
structure DupHit where
  numericalId : Str
  file_name : Str
  file_id : Str
  file_type : Str
deriving DecidableEq

/-- The line loop of `checkForDuplicate` (src/worker.js:346-361): skip lines
that are blank after trimming, parse the raw (untrimmed) line, and report a
hit when field 2 equals the probed name or field 1 equals the probed file id. -/
def dupLoop (fileName fileId : Str) : List Str → Option DupHit
  | [] => none
  | l :: ls =>
    if trim l = [] then dupLoop fileName fileId ls
    else
      let p := parseCSVLine l
      if 4 ≤ p.length then
        if p.getD 2 [] = fileName ∨ p.getD 1 [] = fileId then
          some ⟨p.getD 0 [], p.getD 2 [], p.getD 1 [], p.getD 3 []⟩
        else dupLoop fileName fileId ls
      else dupLoop fileName fileId ls

/-- `checkForDuplicate(fileName, fileId)` (src/worker.js:341-367). -/
def checkForDuplicate (st : Option Str) (fileName fileId : Str) : Option DupHit :=
  match getFileContent st with
  | none => none
  | some c => if c = [] then none else dupLoop fileName fileId (splitNl c)

/-- The duplicate hit `checkForDuplicate` reports when the header row itself
matches the probe. -/
def hdrDupHit : DupHit := ⟨("numerical_file_id").toList, hdrNameTok, fileIdTok, ("file_type").toList⟩

/-- The header test of `getFileCount` (src/worker.js:322-326): only when a
newline exists, lowercase the literal first line and look for `numerical`
or `file_id`. -/
def countHasHeader (c : Str) : Bool :=
  if hasNl c then
    containsSub (toLowerStr (firstLineOf c)) numericalTok ||
      containsSub (toLowerStr (firstLineOf c)) fileIdTok
  else false

/-- `getFileCount()` (src/worker.js:315-339).  The JavaScript `indexOf` walk
counts exactly the segments of `content.split('\n')` whose trim is nonempty;
`Math.max(0, ...)` is truncated `Nat` subtraction. -/
def getFileCount (st : Option Str) : Nat :=
  match getFileContent st with
  | none => 0
  | some c =>
    if c = [] then 0
    else
      ((splitNl c).filter (fun l => decide (trim l ≠ []))).length -
        (if countHasHeader c then 1 else 0)

/-- `appendToCSV` (src/worker.js:369-386): create a two-line file when the
file is absent, otherwise re-read, trim trailing whitespace, and append one
row terminated by a newline. -/
def appendToCSV (st : Option Str) (r : CsvRecord) : Str :=
  match st with
  | none => headerLine ++ '\n' :: (rowOf r ++ ['\n'])
  | some c => trimR c ++ '\n' :: (rowOf r ++ ['\n'])

/-- The store contents after a sequence of successful appends starting from
an absent file. -/
def buildContent (rs : List CsvRecord) : Option Str :=
  rs.foldl (fun c r => some (appendToCSV c r)) none

/-- The body of a canonical store: each row followed by one newline. -/
def joinRows : List CsvRecord → Str
  | [] => []
  | r :: rs => rowOf r ++ '\n' :: joinRows rs

/-!
Upload handling (claims C2, C3).  `handleFileUpload` (src/worker.js:539-553)
runs `checkForDuplicate(fileName, fileId)` and appends only when no
duplicate was reported.
-/

/-- The store effect of one `handleFileUpload` call: duplicate check first,
append suppressed on a hit. -/
def handleFileUpload (st : Option Str) (r : CsvRecord) : Option Str :=
  match checkForDuplicate st r.name r.fid with
  | some _ => st
  | none => some (appendToCSV st r)

/-- Store contents after a sequence of uploads starting from an absent file. -/
def uploads (reqs : List CsvRecord) : Option Str := reqs.foldl handleFileUpload none

/-- Does some already-accepted record collide with `q` on name or file id? -/
def dupKeyHit (acc : List CsvRecord) (q : CsvRecord) : Bool :=
  acc.any (fun r => r.name == q.name || r.fid == q.fid)

/-- The record-level shadow of a sequence of uploads: which requests get
appended.  A request is suppressed when the store is nonempty and it collides
with the header literals or with an accepted record. -/
def acceptedFrom : List CsvRecord → List CsvRecord → List CsvRecord
  | acc, [] => acc
  | acc, q :: qs =>
    if acc = [] then acceptedFrom (acc ++ [q]) qs
    else if q.name = hdrNameTok ∨ q.fid = fileIdTok then acceptedFrom acc qs
    else if dupKeyHit acc q then acceptedFrom acc qs
    else acceptedFrom (acc ++ [q]) qs

/-- The records visible in the store: every non-blank line after the first
(the header), parsed.  Spec-level read-back view used to state invariants. -/
def storeRecords (st : Option Str) : List CsvRecord :=
  match st with
  | none => []
  | some c =>
    (((splitNl c).filter (fun l => decide (trim l ≠ []))).drop 1).map
      (fun l =>
        let p := parseCSVLine l
        ⟨p.getD 0 [], p.getD 1 [], p.getD 2 [], p.getD 3 []⟩)

/-- Field cleanliness for the three unquoted fields of a row: no delimiter,
no quote, no newline, no surrounding whitespace. -/
def plainField (s : Str) : Prop :=
  ',' ∉ s ∧ '"' ∉ s ∧ '\n' ∉ s ∧ trimL s = s ∧ trimR s = s

/-- Cleanliness for the name field, which `escapeCSV` may quote: no newline
and no surrounding whitespace (commas and quotes are allowed). -/
def cleanName (s : Str) : Prop := '\n' ∉ s ∧ trimL s = s ∧ trimR s = s

/-- A record whose CSV row parses back to exactly its four fields. -/
def cleanRec (r : CsvRecord) : Prop :=
  plainField r.nid ∧ plainField r.fid ∧ cleanName r.name ∧ plainField r.ftype

instance (s : Str) : Decidable (plainField s) := by unfold plainField; infer_instance

instance (s : Str) : Decidable (cleanName s) := by unfold cleanName; infer_instance

instance (r : CsvRecord) : Decidable (cleanRec r) := by unfold cleanRec; infer_instance

/-!
The deletion queue sweep (claims C1, C4), `handleScheduledDeletions`
(src/worker.js:31-78).  The Telegram fetch of each due job and the GitHub
writeback are the two effect oracles.
-/

/-- One entry of deletions.json. -/
structure DeletionJob where
  chatId : Int
  messageId : Int
  deleteAt : Int
deriving DecidableEq

/-- The partition loop (src/worker.js:50-56): push each job onto
`dueForDeletion` when `now >= item.deleteAt`, else onto `stillPending`. -/
def sweepPartition (now : Int) (q : List DeletionJob) : List DeletionJob × List DeletionJob :=
  q.foldl
    (fun acc item =>
      if now ≥ item.deleteAt then (acc.1 ++ [item], acc.2) else (acc.1, acc.2 ++ [item]))
    ([], [])

/-- Observable outcome of one sweep: the jobs whose deletion was attempted,
and the queue handed to `updateDeletions` (none when no write happened). -/
structure SweepOutcome where
  attempted : List DeletionJob
  written : Option (List DeletionJob)
deriving DecidableEq

/-- `TelegramBot.deleteMessage` (src/worker.js:487-502): the whole fetch is
wrapped in try/catch, so a failing fetch is logged and swallowed. -/
def deleteMessage (fetchOutcome : Except String Unit) : Except String Unit :=
  match fetchOutcome with
  | Except.ok _ => Except.ok ()
  | Except.error _ => Except.ok ()

/-- `await Promise.all(dueForDeletion.map(item => bot.deleteMessage(...)))`:
the join rejects only if some `deleteMessage` call rejects. -/
def attemptDeletions (f : DeletionJob → Except String Unit) :
    List DeletionJob → Except String Unit
  | [] => Except.ok ()
  | j :: js =>
    match deleteMessage (f j) with
    | Except.ok _ => attemptDeletions f js
    | Except.error e => Except.error e

/-- The try/catch around `updateDeletions` (src/worker.js:72-77): a failed
writeback is logged, never rethrown. -/
def updateDeletionsTry (wf : Except String Unit) : Except String Unit :=
  match wf with
  | Except.ok _ => Except.ok ()
  | Except.error _ => Except.ok ()

/-- `handleScheduledDeletions` (src/worker.js:31-78) over a loaded queue `q`
and clock `now`; `f` gives each job deletion fetch outcome, `wf` the GitHub
writeback outcome. -/
def handleScheduledDeletions (q : List DeletionJob) (now : Int)
    (f : DeletionJob → Except String Unit) (wf : Except String Unit) :
    Except String SweepOutcome :=
  if q = [] then Except.ok ⟨[], none⟩
  else
    let parts := sweepPartition now q
    if parts.1 = [] then Except.ok ⟨[], none⟩
    else
      match attemptDeletions f parts.1 with
      | Except.error e => Except.error e
      | Except.ok _ =>
        match updateDeletionsTry wf with
        | Except.error e => Except.error e
        | Except.ok _ => Except.ok ⟨parts.1, some parts.2⟩

/-!
`generateNumericalFileId` (src/worker.js:505-512): sixteen characters drawn
from `'0123456789'` by `Math.floor(Math.random() * 10)`, modelled as an
oracle of digit indices.
-/

/-- The digit alphabet `'0123456789'`. -/
def digitsStr : Str := ("0123456789").toList

/-- The loop of `generateNumericalFileId` for an arbitrary `length`. -/
def generateNumericalFileIdWith (r : Nat → Fin 10) (len : Nat) : Str :=
  (List.range len).foldl (fun acc i => acc ++ [digitsStr.getD (r i).val ' ']) []

/-- `generateNumericalFileId()` called with its default argument `length = 16`. -/
def generateNumericalFileId (r : Nat → Fin 10) : Str :=
  generateNumericalFileIdWith r 16

/-!
Spec-level definitions used to state the refinement claims (C7): the header
heuristic of `getFileCount` described on its own, and the header heuristic
the spec ascribes to `findFileByIdStreaming` (a marker token in the first
non-empty line).
-/

/-- Spec wording of the count-side heuristic: the literal first line (the
prefix before the first newline; no header when no newline exists),
lowercased, contains `numerical` or `file_id`. -/
def countHeaderSpec (c : Str) : Bool :=
  hasNl c &&
    (containsSub (toLowerStr (firstLineOf c)) numericalTok ||
      containsSub (toLowerStr (firstLineOf c)) fileIdTok)

/-- Spec wording of the find-side heuristic: the first non-empty line,
trimmed and lowercased, contains `numerical`. -/
def findHeaderDetect (c : Str) : Bool :=
  match (splitNl c).find? (fun l => decide (trim l ≠ [])) with
  | none => false
  | some l => containsSub (toLowerStr (trim l)) numericalTok

/-- Number of non-blank lines of a content string. -/
def nonBlankCount (c : Str) : Nat :=
  ((splitNl c).filter (fun l => decide (trim l ≠ []))).length

/-!
Concrete instances used by the claim theorems below.
-/

/-- A display name with an embedded apostrophe, a comma and quotes:
`O'Brien, "big" file.pdf`. -/
def exName : Str := ("O\x27Brien, \"big\" file.pdf").toList

/-- The record of the round-trip property: logical id `1234567890123456`. -/
def exRecord : CsvRecord :=
  ⟨("1234567890123456").toList, ("REFX01").toList, exName, ("Document").toList⟩

/-- A one-record store whose record collides with nothing below. -/
def dupHeaderStore : List CsvRecord :=
  [⟨("1000000000000001").toList, ("REFB").toList, ("NameA").toList, ("Document").toList⟩]

/-- Two records that a later probe can match on different fields. -/
def dupPairStore : List CsvRecord :=
  [⟨("1000000000000003").toList, ("F1").toList, ("N1").toList, ("Document").toList⟩,
   ⟨("1000000000000004").toList, ("F2").toList, ("N2").toList, ("Video").toList⟩]

/-- Two upload requests with the same display name carrying a leading space;
the stored row is parsed with trimming, so the duplicate check misses. -/
def untrimmedReqs : List CsvRecord :=
  [⟨("1000000000000001").toList, ("R1").toList, (" A").toList, ("Document").toList⟩,
   ⟨("1000000000000002").toList, ("R2").toList, (" A").toList, ("Document").toList⟩]

/-- Two upload requests sharing a display name (clean fields). -/
def demoReqs : List CsvRecord :=
  [⟨("1000000000000005").toList, ("FA").toList, ("NameOne").toList, ("Document").toList⟩,
   ⟨("1000000000000006").toList, ("FB").toList, ("NameOne").toList, ("Video").toList⟩]

/-- A record whose display name contains a newline. -/
def newlineNameRecord : CsvRecord :=
  ⟨("1111111111111111").toList, ("REF1").toList, ("a\nb").toList, ("Document").toList⟩

/-- Two clean records with distinct names and file ids. -/
def demoStore2 : List CsvRecord :=
  [⟨("2000000000000001").toList, ("G1").toList, ("alpha.txt").toList, ("Document").toList⟩,
   ⟨("2000000000000002").toList, ("G2").toList, ("beta.txt").toList, ("Video").toList⟩]

/-- Content whose first line contains `file_id` but not `numerical`. -/
def mixedHeaderContent : Str := ("file_id\nx,y,z,w").toList

/-!
Theorems.  First a kit of small lemmas about trimming, line splitting and
the CSV parser; then canonical forms for store contents built by appends;
then the claim theorems.
-/

theorem trim_nil : trim [] = [] := rfl

theorem length_trimL_le (l : Str) : (trimL l).length ≤ l.length := by
  induction l with
  | nil => exact Nat.le_refl _
  | cons a t ih =>
    unfold trimL at *
    rw [List.dropWhile_cons]
    by_cases h : Char.isWhitespace a = true
    · rw [if_pos h]; exact Nat.le_trans ih (Nat.le_succ _)
    · rw [if_neg h]

theorem isWs_false_of_trimL_cons {c : Char} {t : Str} (h : trimL (c :: t) = c :: t) :
    Char.isWhitespace c = false := by
  by_contra hb
  have hw : Char.isWhitespace c = true := by
    cases hh : Char.isWhitespace c
    · exact absurd hh hb
    · rfl
  unfold trimL at h
  rw [List.dropWhile_cons, if_pos hw] at h
  have := length_trimL_le t
  unfold trimL at this
  rw [h] at this
  simp at this

theorem trimL_cons_of_not_ws {c : Char} (t : Str) (h : Char.isWhitespace c = false) :
    trimL (c :: t) = c :: t := by
  unfold trimL
  rw [List.dropWhile_cons, if_neg (by simp [h])]

theorem trimL_append_self {s : Str} (t : Str) (h : trimL s = s) (hne : s ≠ []) :
    trimL (s ++ t) = s ++ t := by
  cases s with
  | nil => exact absurd rfl hne
  | cons c s' =>
    have hc := isWs_false_of_trimL_cons h
    simpa using trimL_cons_of_not_ws (s' ++ t) hc

theorem trimR_reverse_eq {s : Str} (h : trimR s = s) : trimL s.reverse = s.reverse := by
  unfold trimR at h
  calc trimL s.reverse = (trimL s.reverse).reverse.reverse := by rw [List.reverse_reverse]
    _ = s.reverse := by rw [h]

theorem trimR_append_self (s : Str) {t : Str} (h : trimR t = t) (hne : t ≠ []) :
    trimR (s ++ t) = s ++ t := by
  unfold trimR
  rw [List.reverse_append]
  rw [trimL_append_self s.reverse (trimR_reverse_eq h) (by simpa using hne)]
  rw [List.reverse_append, List.reverse_reverse, List.reverse_reverse]

theorem trimR_snoc_nl (s : Str) : trimR (s ++ ['\n']) = trimR s := by
  unfold trimR
  rw [List.reverse_append]
  have : ('\n' : Char).isWhitespace = true := by decide
  simp only [List.reverse_cons, List.reverse_nil, List.nil_append, List.singleton_append]
  unfold trimL
  rw [List.dropWhile_cons, if_pos (by simp [this])]

theorem trim_eq_self {s : Str} (h1 : trimL s = s) (h2 : trimR s = s) : trim s = s := by
  unfold trim
  rw [h2, h1]

theorem splitNl_ne_nil (s : Str) : splitNl s ≠ [] := by
  cases s with
  | nil => simp [splitNl]
  | cons c cs =>
    unfold splitNl
    by_cases h : c = '\n'
    · rw [if_pos h]; simp
    · rw [if_neg h]
      cases hs : splitNl cs <;> simp

theorem splitNl_cons_nl (cs : Str) : splitNl ('\n' :: cs) = [] :: splitNl cs := by
  conv_lhs => unfold splitNl
  rw [if_pos rfl]

theorem splitNl_cons_ne {c : Char} (cs : Str) {s : Str} {ss : List Str} (h : c ≠ '\n')
    (hs : splitNl cs = s :: ss) : splitNl (c :: cs) = (c :: s) :: ss := by
  conv_lhs => unfold splitNl
  rw [if_neg h, hs]

theorem splitNl_append_nl (x y : Str) : splitNl (x ++ '\n' :: y) = splitNl x ++ splitNl y := by
  induction x with
  | nil =>
    simp only [List.nil_append]
    rw [splitNl_cons_nl]
    rfl
  | cons c cs ih =>
    by_cases h : c = '\n'
    · subst h
      simp only [List.cons_append]
      rw [splitNl_cons_nl, splitNl_cons_nl, ih]
      rfl
    · cases hs : splitNl cs with
      | nil => exact absurd hs (splitNl_ne_nil cs)
      | cons s ss =>
        simp only [List.cons_append]
        rw [splitNl_cons_ne _ h (by rw [ih, hs]; rfl),
          splitNl_cons_ne _ h hs]
        rfl

theorem splitNl_no_nl {s : Str} (h : '\n' ∉ s) : splitNl s = [s] := by
  induction s with
  | nil => rfl
  | cons c cs ih =>
    have hc : c ≠ '\n' := fun hh => h (hh ▸ List.mem_cons_self c cs)
    have hcs : '\n' ∉ cs := fun hh => h (List.mem_cons_of_mem c hh)
    unfold splitNl
    rw [if_neg hc, ih hcs]

theorem parseAux_nil (inQ : Bool) (cur : Str) : parseAux [] inQ cur = [trim cur] := rfl

theorem parseAux_cons_other {c : Char} (l : Str) {inQ : Bool} (cur : Str)
    (hq : c ≠ '"') (hcm : ¬(c = ',' ∧ inQ = false)) :
    parseAux (c :: l) inQ cur = parseAux l inQ (cur ++ [c]) := by
  cases l with
  | nil =>
    show parseAux [c] inQ cur = _
    unfold parseAux
    rw [if_neg hq, if_neg hcm]
  | cons c2 l2 =>
    show parseAux (c :: c2 :: l2) inQ cur = _
    conv_lhs => unfold parseAux
    rw [if_neg hq, if_neg hcm]

theorem parseAux_cons_comma (l : Str) (cur : Str) :
    parseAux (',' :: l) false cur = trim cur :: parseAux l false [] := by
  cases l with
  | nil =>
    show parseAux [','] false cur = _
    unfold parseAux
    rw [if_neg (by decide), if_pos (by exact ⟨rfl, rfl⟩)]
    rfl
  | cons c2 l2 =>
    show parseAux (',' :: c2 :: l2) false cur = _
    conv_lhs => unfold parseAux
    rw [if_neg (by decide), if_pos (by exact ⟨rfl, rfl⟩)]

theorem parseAux_quote_open (l : Str) (cur : Str) :
    parseAux ('"' :: l) false cur = parseAux l true cur := by
  cases l with
  | nil =>
    show parseAux ['"'] false cur = _
    unfold parseAux
    rw [if_pos rfl]
  | cons c2 l2 =>
    show parseAux ('"' :: c2 :: l2) false cur = _
    conv_lhs => unfold parseAux
    rw [if_pos rfl]
    simp only [Bool.false_eq_true, if_false]

theorem parseAux_quote_close (l : Str) (cur : Str) (h : l.head? ≠ some '"') :
    parseAux ('"' :: l) true cur = parseAux l false cur := by
  cases l with
  | nil =>
    show parseAux ['"'] true cur = _
    unfold parseAux
    rw [if_pos rfl]
  | cons c2 l2 =>
    have hc2 : c2 ≠ '"' := by
      intro hh
      exact h (by rw [hh]; rfl)
    show parseAux ('"' :: c2 :: l2) true cur = _
    conv_lhs => unfold parseAux
    rw [if_pos rfl, if_pos rfl, if_neg hc2]

theorem parseAux_quote_esc (l : Str) (cur : Str) :
    parseAux ('"' :: '"' :: l) true cur = parseAux l true (cur ++ ['"']) := by
  show parseAux ('"' :: '"' :: l) true cur = _
  conv_lhs => unfold parseAux
  rw [if_pos rfl, if_pos rfl, if_pos rfl]

theorem parseAux_seg (s : Str) (rest : Str) (inQ : Bool) (cur : Str)
    (hq : '"' ∉ s) (hc : inQ = true ∨ ',' ∉ s) :
    parseAux (s ++ rest) inQ cur = parseAux rest inQ (cur ++ s) := by
  induction s generalizing cur with
  | nil => simp
  | cons c cs ih =>
    have hqc : c ≠ '"' := fun hh => hq (hh ▸ List.mem_cons_self c cs)
    have hqs : '"' ∉ cs := fun hh => hq (List.mem_cons_of_mem c hh)
    have hcm : ¬(c = ',' ∧ inQ = false) := by
      rintro ⟨hc1, hc2⟩
      cases hc with
      | inl h => rw [h] at hc2; cases hc2
      | inr h => exact h (hc1 ▸ List.mem_cons_self c cs)
    have hcs : inQ = true ∨ ',' ∉ cs := by
      cases hc with
      | inl h => exact Or.inl h
      | inr h => exact Or.inr (fun hh => h (List.mem_cons_of_mem c hh))
    rw [List.cons_append, parseAux_cons_other _ cur hqc hcm, ih (cur ++ [c]) hqs hcs]
    simp

theorem escQuote_cons_quote (cs : Str) : escQuote ('"' :: cs) = '"' :: '"' :: escQuote cs := by
  conv_lhs => unfold escQuote
  rw [if_pos rfl]

theorem escQuote_cons_ne {c : Char} (cs : Str) (h : c ≠ '"') :
    escQuote (c :: cs) = c :: escQuote cs := by
  conv_lhs => unfold escQuote
  rw [if_neg h]

theorem parseAux_escQuote (s : Str) (rest : Str) (cur : Str) (h : rest.head? ≠ some '"') :
    parseAux (escQuote s ++ '"' :: rest) true cur = parseAux rest false (cur ++ s) := by
  induction s generalizing cur with
  | nil =>
    show parseAux ('"' :: rest) true cur = _
    rw [parseAux_quote_close rest cur h]
    simp
  | cons c cs ih =>
    by_cases hc : c = '"'
    · subst hc
      rw [escQuote_cons_quote, List.cons_append, List.cons_append, parseAux_quote_esc,
        ih (cur ++ ['"'])]
      simp
    · rw [escQuote_cons_ne cs hc, List.cons_append,
        parseAux_cons_other _ cur hc (by rintro ⟨_, hh⟩; cases hh), ih (cur ++ [c])]
      simp

theorem parseAux_last (s : Str) (cur : Str) (hq : '"' ∉ s) (hc : ',' ∉ s) :
    parseAux s false cur = [trim (cur ++ s)] := by
  have h := parseAux_seg s [] false cur hq (Or.inr hc)
  rw [List.append_nil] at h
  rw [h, parseAux_nil]

theorem parseCSVLine_rowOf {r : CsvRecord} (h : cleanRec r) :
    parseCSVLine (rowOf r) = [r.nid, r.fid, r.name, r.ftype] := by
  obtain ⟨⟨hn1, hn2, _, hn4, hn5⟩, ⟨hf1, hf2, _, hf4, hf5⟩, ⟨hm3, hm4, hm5⟩, ⟨ht1, ht2, _, ht4, ht5⟩⟩ := h
  unfold parseCSVLine rowOf
  rw [parseAux_seg _ _ false [] hn2 (Or.inr hn1), List.nil_append,
    parseAux_cons_comma, trim_eq_self hn4 hn5,
    parseAux_seg _ _ false [] hf2 (Or.inr hf1), List.nil_append,
    parseAux_cons_comma, trim_eq_self hf4 hf5]
  unfold escapeCSV
  by_cases hq : ',' ∈ r.name ∨ '"' ∈ r.name ∨ '\n' ∈ r.name
  · rw [if_pos hq]
    have hassoc : ('"' :: (escQuote r.name ++ ['"'])) ++ ',' :: r.ftype =
        '"' :: (escQuote r.name ++ '"' :: (',' :: r.ftype)) := by simp
    rw [hassoc, parseAux_quote_open, parseAux_escQuote _ _ [] (by simp), List.nil_append,
      parseAux_cons_comma, trim_eq_self hm4 hm5,
      parseAux_last r.ftype [] ht2 ht1, List.nil_append, trim_eq_self ht4 ht5]
  · rw [if_neg hq]
    push_neg at hq
    obtain ⟨hq1, hq2, _⟩ := hq
    rw [parseAux_seg _ _ false [] hq2 (Or.inr hq1), List.nil_append,
      parseAux_cons_comma, trim_eq_self hm4 hm5,
      parseAux_last r.ftype [] ht2 ht1, List.nil_append, trim_eq_self ht4 ht5]

theorem escQuote_mem {c : Char} {s : Str} (h : c ∈ escQuote s) : c ∈ s ∨ c = '"' := by
  induction s with
  | nil => cases h
  | cons a t ih =>
    by_cases ha : a = '"'
    · subst ha
      rw [escQuote_cons_quote] at h
      simp only [List.mem_cons] at h
      rcases h with h | h | h
      · exact Or.inr h
      · exact Or.inr h
      · rcases ih h with h2 | h2
        · exact Or.inl (List.mem_cons_of_mem _ h2)
        · exact Or.inr h2
    · rw [escQuote_cons_ne t ha] at h
      simp only [List.mem_cons] at h
      rcases h with h | h
      · exact Or.inl (by rw [h]; exact List.mem_cons_self _ _)
      · rcases ih h with h2 | h2
        · exact Or.inl (List.mem_cons_of_mem _ h2)
        · exact Or.inr h2

theorem nl_not_mem_escapeCSV {s : Str} (h : '\n' ∉ s) : '\n' ∉ escapeCSV s := by
  unfold escapeCSV
  by_cases hq : ',' ∈ s ∨ '"' ∈ s ∨ '\n' ∈ s
  · rw [if_pos hq]
    intro hm
    simp only [List.mem_cons, List.mem_append, List.mem_singleton] at hm
    rcases hm with hm | hm | hm
    · exact absurd hm (by decide)
    · rcases escQuote_mem hm with h3 | h3
      · exact h h3
      · exact absurd h3 (by decide)
    · exact absurd hm (by decide)
  · rw [if_neg hq]
    exact h

theorem nl_not_mem_rowOf {r : CsvRecord} (h : cleanRec r) : '\n' ∉ rowOf r := by
  obtain ⟨⟨_, _, hn3, _, _⟩, ⟨_, _, hf3, _, _⟩, ⟨hm3, _, _⟩, ⟨_, _, ht3, _, _⟩⟩ := h
  unfold rowOf
  intro hm
  simp only [List.mem_append, List.mem_cons] at hm
  rcases hm with hm | hm | hm | hm | hm | hm | hm
  · exact hn3 hm
  · exact absurd hm (by decide)
  · exact hf3 hm
  · exact absurd hm (by decide)
  · exact nl_not_mem_escapeCSV hm3 hm
  · exact absurd hm (by decide)
  · exact ht3 hm

theorem rowOf_ne_nil (r : CsvRecord) : rowOf r ≠ [] := by
  intro h
  have : (rowOf r).length = 0 := by rw [h]; rfl
  unfold rowOf at this
  simp at this

theorem trimL_rowOf {r : CsvRecord} (h : cleanRec r) : trimL (rowOf r) = rowOf r := by
  obtain ⟨⟨_, _, _, hn4, _⟩, _, _, _⟩ := h
  cases hn : r.nid with
  | nil =>
    unfold rowOf
    rw [hn, List.nil_append]
    exact trimL_cons_of_not_ws _ (by decide)
  | cons c t =>
    have hc : Char.isWhitespace c = false := isWs_false_of_trimL_cons (hn ▸ hn4)
    unfold rowOf
    rw [hn, List.cons_append]
    exact trimL_cons_of_not_ws _ hc

theorem trimR_rowOf {r : CsvRecord} (h : cleanRec r) : trimR (rowOf r) = rowOf r := by
  obtain ⟨_, _, _, ⟨_, _, _, _, ht5⟩⟩ := h
  have hshape : rowOf r = (r.nid ++ ',' :: (r.fid ++ ',' :: escapeCSV r.name) ++ [',']) ++ r.ftype := by
    simp [rowOf]
  cases hf : r.ftype with
  | nil =>
    rw [hshape, hf, List.append_nil]
    exact trimR_append_self _ (by decide) (by simp)
  | cons c t =>
    rw [hshape, hf]
    exact trimR_append_self _ (hf ▸ ht5) (by simp)

theorem trim_rowOf {r : CsvRecord} (h : cleanRec r) : trim (rowOf r) = rowOf r :=
  trim_eq_self (trimL_rowOf h) (trimR_rowOf h)

theorem trim_rowOf_ne_nil {r : CsvRecord} (h : cleanRec r) : trim (rowOf r) ≠ [] := by
  rw [trim_rowOf h]
  exact rowOf_ne_nil r

theorem joinRows_append (a b : List CsvRecord) :
    joinRows (a ++ b) = joinRows a ++ joinRows b := by
  induction a with
  | nil => rfl
  | cons r rs ih => simp [joinRows, ih]

theorem buildContent_concat (rs : List CsvRecord) (r : CsvRecord) :
    buildContent (rs ++ [r]) = some (appendToCSV (buildContent rs) r) := by
  unfold buildContent
  rw [List.foldl_append]
  rfl

theorem buildContent_eq (rs : List CsvRecord) (hne : rs ≠ [])
    (hc : ∀ r ∈ rs, cleanRec r) :
    buildContent rs = some (headerLine ++ '\n' :: joinRows rs) ∧
    trimR (headerLine ++ '\n' :: joinRows rs) ++ ['\n'] = headerLine ++ '\n' :: joinRows rs := by
  revert hne hc
  induction rs using List.reverseRecOn with
  | nil => intro hne _; exact absurd rfl hne
  | append_singleton l b ih =>
    intro _ hc
    have hcb : cleanRec b := hc b (by simp)
    by_cases hl : l = []
    · subst hl
      refine ⟨rfl, ?_⟩
      have hsh : headerLine ++ '\n' :: joinRows ([] ++ [b]) =
          ((headerLine ++ ['\n']) ++ rowOf b) ++ ['\n'] := by
        simp [joinRows]
      rw [hsh, trimR_snoc_nl, trimR_append_self _ (trimR_rowOf hcb) (rowOf_ne_nil b)]
    · obtain ⟨h1, h2⟩ := ih hl (fun r hr => hc r (List.mem_append_left _ hr))
      have hstep : appendToCSV (buildContent l) b =
          (headerLine ++ '\n' :: joinRows l) ++ (rowOf b ++ ['\n']) := by
        rw [h1]
        show trimR (headerLine ++ '\n' :: joinRows l) ++ '\n' :: (rowOf b ++ ['\n']) = _
        calc trimR (headerLine ++ '\n' :: joinRows l) ++ '\n' :: (rowOf b ++ ['\n'])
            = (trimR (headerLine ++ '\n' :: joinRows l) ++ ['\n']) ++ (rowOf b ++ ['\n']) := by
              simp
          _ = (headerLine ++ '\n' :: joinRows l) ++ (rowOf b ++ ['\n']) := by rw [h2]
      have hjoin : headerLine ++ '\n' :: joinRows (l ++ [b]) =
          (headerLine ++ '\n' :: joinRows l) ++ (rowOf b ++ ['\n']) := by
        rw [joinRows_append]
        simp [joinRows]
      constructor
      · rw [buildContent_concat, hstep, hjoin]
      · rw [hjoin]
        have hsh : (headerLine ++ '\n' :: joinRows l) ++ (rowOf b ++ ['\n']) =
            ((headerLine ++ '\n' :: joinRows l) ++ rowOf b) ++ ['\n'] := by simp
        rw [hsh, trimR_snoc_nl, trimR_append_self _ (trimR_rowOf hcb) (rowOf_ne_nil b)]

theorem nl_not_mem_headerLine : '\n' ∉ headerLine := by decide

theorem splitNl_joinRows (rs : List CsvRecord) (hc : ∀ r ∈ rs, cleanRec r) :
    splitNl (joinRows rs) = rs.map rowOf ++ [[]] := by
  induction rs with
  | nil => rfl
  | cons r rs ih =>
    have hcr : cleanRec r := hc r (List.mem_cons_self r rs)
    show splitNl (rowOf r ++ '\n' :: joinRows rs) = _
    rw [splitNl_append_nl, splitNl_no_nl (nl_not_mem_rowOf hcr),
      ih (fun x hx => hc x (List.mem_cons_of_mem r hx))]
    rfl

theorem splitNl_content (rs : List CsvRecord) (hc : ∀ r ∈ rs, cleanRec r) :
    splitNl (headerLine ++ '\n' :: joinRows rs) = headerLine :: (rs.map rowOf ++ [[]]) := by
  rw [splitNl_append_nl, splitNl_no_nl nl_not_mem_headerLine, splitNl_joinRows rs hc]
  rfl

theorem getFileContent_eq (st : Option Str) : getFileContent st = st := by
  cases st with
  | none => rfl
  | some c =>
    by_cases h : GITHUB_SIZE_LIMIT < c.length
    · simp [getFileContent, getFileInfo, downloadLargeFile, fetchBlob, fetchContentsApi, shaOf, h]
    · simp [getFileContent, getFileInfo, fetchContentsApi, h]

theorem content_ne_nil (rs : List CsvRecord) :
    headerLine ++ '\n' :: joinRows rs ≠ [] := by
  intro h
  have : (headerLine ++ '\n' :: joinRows rs).length = 0 := by rw [h]; rfl
  simp [headerLine] at this

theorem findLoop_cons_row (id : Str) {r : CsvRecord} (hcr : cleanRec r) (ls : List Str) :
    findLoop id (rowOf r :: ls) true =
      if r.nid = id then some ⟨r.fid, orUnknown r.name, orUnknown r.ftype⟩
      else findLoop id ls true := by
  conv_lhs => unfold findLoop
  simp only [trim_rowOf hcr, Bool.not_true, Bool.false_and, Bool.false_eq_true, if_false,
    parseCSVLine_rowOf hcr]
  rw [if_neg (rowOf_ne_nil r)]
  by_cases hid : r.nid = id
  · rw [if_pos ⟨by simp, by simpa using hid⟩, if_pos hid]
    rfl
  · rw [if_neg (by rintro ⟨_, hh⟩; exact hid (by simpa using hh)), if_neg hid]

theorem findLoop_blank (id : Str) {l : Str} (hl : trim l = []) (ls : List Str) (hs : Bool) :
    findLoop id (l :: ls) hs = findLoop id ls hs := by
  conv_lhs => unfold findLoop
  simp only [hl]
  rw [if_pos trivial]

theorem findLoop_rows (rs : List CsvRecord) (hc : ∀ r ∈ rs, cleanRec r) (id : Str) :
    findLoop id (rs.map rowOf ++ [[]]) true =
      (rs.find? (fun r => r.nid == id)).map
        (fun r => ⟨r.fid, orUnknown r.name, orUnknown r.ftype⟩) := by
  induction rs with
  | nil =>
    show findLoop id [[]] true = none
    rw [findLoop_blank id trim_nil [] true]
    rfl
  | cons r rs ih =>
    have hcr : cleanRec r := hc r (List.mem_cons_self r rs)
    show findLoop id (rowOf r :: (rs.map rowOf ++ [[]])) true = _
    rw [findLoop_cons_row id hcr]
    by_cases hid : r.nid = id
    · rw [if_pos hid, List.find?_cons_of_pos _ (by simpa using hid)]
      rfl
    · rw [if_neg hid, List.find?_cons_of_neg _ (by simpa using hid),
        ih (fun x hx => hc x (List.mem_cons_of_mem r hx))]

theorem findFileByIdStreaming_canonical (rs : List CsvRecord) (hc : ∀ r ∈ rs, cleanRec r)
    (id : Str) :
    findFileByIdStreaming (buildContent rs) id =
      (rs.find? (fun r => r.nid == id)).map
        (fun r => ⟨r.fid, orUnknown r.name, orUnknown r.ftype⟩) := by
  cases hrs : rs with
  | nil => rfl
  | cons r0 rs0 =>
    subst hrs
    obtain ⟨h1, _⟩ := buildContent_eq (r0 :: rs0) (by simp) hc
    have hmain : findFileByIdStreaming (buildContent (r0 :: rs0)) id =
        findLoop id (splitNl (headerLine ++ '\n' :: joinRows (r0 :: rs0))) false := by
      unfold findFileByIdStreaming
      rw [getFileContent_eq, h1]
      exact if_neg (content_ne_nil (r0 :: rs0))
    rw [hmain, splitNl_content _ hc]
    have hskip : findLoop id (headerLine :: ((r0 :: rs0).map rowOf ++ [[]])) false =
        findLoop id ((r0 :: rs0).map rowOf ++ [[]]) true := by
      conv_lhs => unfold findLoop
      rw [if_neg (by decide), if_pos (by decide)]
    rw [hskip, findLoop_rows _ hc id]

theorem dupLoop_blank {l : Str} (hl : trim l = []) (nm fid : Str) (ls : List Str) :
    dupLoop nm fid (l :: ls) = dupLoop nm fid ls := by
  conv_lhs => unfold dupLoop
  simp only [hl]
  rw [if_pos trivial]

theorem dupLoop_cons_row (nm fid : Str) {r : CsvRecord} (hcr : cleanRec r) (ls : List Str) :
    dupLoop nm fid (rowOf r :: ls) =
      if r.name = nm ∨ r.fid = fid then some ⟨r.nid, r.name, r.fid, r.ftype⟩
      else dupLoop nm fid ls := by
  conv_lhs => unfold dupLoop
  rw [if_neg (trim_rowOf_ne_nil hcr)]
  simp only [parseCSVLine_rowOf hcr]
  rw [if_pos (by simp)]
  have g0 : ([r.nid, r.fid, r.name, r.ftype] : List Str).getD 0 [] = r.nid := rfl
  have g1 : ([r.nid, r.fid, r.name, r.ftype] : List Str).getD 1 [] = r.fid := rfl
  have g2 : ([r.nid, r.fid, r.name, r.ftype] : List Str).getD 2 [] = r.name := rfl
  have g3 : ([r.nid, r.fid, r.name, r.ftype] : List Str).getD 3 [] = r.ftype := rfl
  rw [g0, g1, g2, g3]

theorem parseCSVLine_headerLine :
    parseCSVLine headerLine =
      [("numerical_file_id").toList, fileIdTok, hdrNameTok, ("file_type").toList] := by
  decide

theorem dupLoop_header (nm fid : Str) (ls : List Str) :
    dupLoop nm fid (headerLine :: ls) =
      if hdrNameTok = nm ∨ fileIdTok = fid then some hdrDupHit
      else dupLoop nm fid ls := by
  conv_lhs => unfold dupLoop
  rw [if_neg (by decide)]
  simp only [parseCSVLine_headerLine]
  rw [if_pos (by simp)]
  rfl

theorem dupLoop_rows (rs : List CsvRecord) (hc : ∀ r ∈ rs, cleanRec r) (nm fid : Str) :
    dupLoop nm fid (rs.map rowOf ++ [[]]) =
      (rs.find? (fun r => r.name == nm || r.fid == fid)).map
        (fun r => ⟨r.nid, r.name, r.fid, r.ftype⟩) := by
  induction rs with
  | nil =>
    show dupLoop nm fid [[]] = none
    rw [dupLoop_blank trim_nil nm fid []]
    rfl
  | cons r rs ih =>
    have hcr : cleanRec r := hc r (List.mem_cons_self r rs)
    show dupLoop nm fid (rowOf r :: (rs.map rowOf ++ [[]])) = _
    rw [dupLoop_cons_row nm fid hcr]
    by_cases hm : r.name = nm ∨ r.fid = fid
    · rw [if_pos hm, List.find?_cons_of_pos _ (by simpa using hm)]
      rfl
    · rw [if_neg hm, List.find?_cons_of_neg _ (by simpa using hm),
        ih (fun x hx => hc x (List.mem_cons_of_mem r hx))]

theorem checkForDuplicate_canonical (rs : List CsvRecord) (hc : ∀ r ∈ rs, cleanRec r)
    (nm fid : Str) :
    checkForDuplicate (buildContent rs) nm fid =
      if rs = [] then none
      else if hdrNameTok = nm ∨ fileIdTok = fid then some hdrDupHit
      else
        (rs.find? (fun r => r.name == nm || r.fid == fid)).map
          (fun r => ⟨r.nid, r.name, r.fid, r.ftype⟩) := by
  cases hrs : rs with
  | nil => rfl
  | cons r0 rs0 =>
    subst hrs
    obtain ⟨h1, _⟩ := buildContent_eq (r0 :: rs0) (by simp) hc
    have hmain : checkForDuplicate (buildContent (r0 :: rs0)) nm fid =
        dupLoop nm fid (splitNl (headerLine ++ '\n' :: joinRows (r0 :: rs0))) := by
      unfold checkForDuplicate
      rw [getFileContent_eq, h1]
      exact if_neg (content_ne_nil (r0 :: rs0))
    rw [hmain, splitNl_content _ hc, dupLoop_header, dupLoop_rows _ hc nm fid,
      if_neg (by simp : ¬(r0 :: rs0 = []))]

theorem firstLineOf_append {a : Str} (b : Str) (h : '\n' ∉ a) :
    firstLineOf (a ++ '\n' :: b) = a := by
  induction a with
  | nil => rfl
  | cons c cs ih =>
    have hc : c ≠ '\n' := fun hh => h (hh ▸ List.mem_cons_self c cs)
    have hcs : '\n' ∉ cs := fun hh => h (List.mem_cons_of_mem c hh)
    show firstLineOf (c :: (cs ++ '\n' :: b)) = _
    unfold firstLineOf
    rw [List.takeWhile_cons, if_pos (by simpa using hc)]
    rw [show List.takeWhile (fun ch => ch != '\n') (cs ++ '\n' :: b) = firstLineOf (cs ++ '\n' :: b) from rfl,
      ih hcs]

theorem hasNl_append_nl (a b : Str) : hasNl (a ++ '\n' :: b) = true := by
  simp [hasNl]

theorem filter_rows_all (rs : List CsvRecord) (hc : ∀ r ∈ rs, cleanRec r) :
    (rs.map rowOf).filter (fun l => decide (trim l ≠ [])) = rs.map rowOf := by
  induction rs with
  | nil => rfl
  | cons r rs ih =>
    have hcr : cleanRec r := hc r (List.mem_cons_self r rs)
    show List.filter _ (rowOf r :: rs.map rowOf) = _
    rw [List.filter_cons, if_pos (by simpa using trim_rowOf_ne_nil hcr),
      ih (fun x hx => hc x (List.mem_cons_of_mem r hx))]
    rfl

theorem nonBlank_content_lines (rs : List CsvRecord) (hc : ∀ r ∈ rs, cleanRec r) :
    ((headerLine :: (rs.map rowOf ++ [[]])).filter (fun l => decide (trim l ≠ []))).length =
      1 + rs.length := by
  rw [List.filter_cons, if_pos (by decide), List.filter_append, filter_rows_all rs hc]
  have : ([([] : Str)].filter (fun l => decide (trim l ≠ []))) = [] := by decide
  rw [this]
  simp [Nat.add_comm]

theorem countHasHeader_content (rs : List CsvRecord) :
    countHasHeader (headerLine ++ '\n' :: joinRows rs) = true := by
  unfold countHasHeader
  rw [if_pos (hasNl_append_nl headerLine (joinRows rs)),
    firstLineOf_append (joinRows rs) nl_not_mem_headerLine]
  decide

theorem getFileCount_canonical (rs : List CsvRecord) (hc : ∀ r ∈ rs, cleanRec r) :
    getFileCount (buildContent rs) = rs.length := by
  cases hrs : rs with
  | nil => rfl
  | cons r0 rs0 =>
    subst hrs
    obtain ⟨h1, _⟩ := buildContent_eq (r0 :: rs0) (by simp) hc
    have hmain : getFileCount (buildContent (r0 :: rs0)) =
        ((splitNl (headerLine ++ '\n' :: joinRows (r0 :: rs0))).filter
            (fun l => decide (trim l ≠ []))).length -
          (if countHasHeader (headerLine ++ '\n' :: joinRows (r0 :: rs0)) then 1 else 0) := by
      unfold getFileCount
      rw [getFileContent_eq, h1]
      exact if_neg (content_ne_nil (r0 :: rs0))
    rw [hmain, splitNl_content _ hc, nonBlank_content_lines _ hc,
      countHasHeader_content (r0 :: rs0), if_pos rfl]
    simp [Nat.add_comm]

theorem countHasHeader_eq_spec (c : Str) : countHasHeader c = countHeaderSpec c := by
  unfold countHasHeader countHeaderSpec
  by_cases h : hasNl c = true
  · rw [if_pos h, h, Bool.true_and]
  · rw [if_neg h, Bool.not_eq_true] at *
    rw [h, Bool.false_and]

theorem getFileCount_eq_spec (c : Str) :
    getFileCount (some c) = nonBlankCount c - (if countHeaderSpec c then 1 else 0) := by
  by_cases hc : c = []
  · subst hc
    decide
  · have hmain : getFileCount (some c) =
        ((splitNl c).filter (fun l => decide (trim l ≠ []))).length -
          (if countHasHeader c then 1 else 0) := by
      unfold getFileCount
      rw [getFileContent_eq]
      exact if_neg hc
    rw [hmain, countHasHeader_eq_spec]
    rfl

theorem splitNl_head (c : Str) : ∃ ss, splitNl c = firstLineOf c :: ss := by
  induction c with
  | nil => exact ⟨[], rfl⟩
  | cons a cs ih =>
    by_cases ha : a = '\n'
    · subst ha
      refine ⟨splitNl cs, ?_⟩
      rw [splitNl_cons_nl]
      rfl
    · obtain ⟨ss, hss⟩ := ih
      refine ⟨ss, ?_⟩
      rw [splitNl_cons_ne cs ha hss]
      show _ = firstLineOf (a :: cs) :: ss
      unfold firstLineOf
      rw [List.takeWhile_cons, if_pos (by simpa using ha)]

theorem findHeaderDetect_first {c : Str} (hne : decide (trim (firstLineOf c) ≠ []) = true) :
    findHeaderDetect c = containsSub (toLowerStr (trim (firstLineOf c))) numericalTok := by
  unfold findHeaderDetect
  obtain ⟨ss, hss⟩ := splitNl_head c
  have hf : List.find? (fun l => decide (trim l ≠ [])) (firstLineOf c :: ss) =
      some (firstLineOf c) := List.find?_cons_of_pos _ hne
  rw [hss, hf]

theorem sweepPartition_eq (now : Int) (q : List DeletionJob) :
    sweepPartition now q =
      (q.filter (fun j => decide (j.deleteAt ≤ now)),
        q.filter (fun j => decide (¬j.deleteAt ≤ now))) := by
  have key : ∀ (l : List DeletionJob) (a b : List DeletionJob),
      l.foldl
        (fun acc item =>
          if now ≥ item.deleteAt then (acc.1 ++ [item], acc.2) else (acc.1, acc.2 ++ [item]))
        (a, b) =
      (a ++ l.filter (fun j => decide (j.deleteAt ≤ now)),
        b ++ l.filter (fun j => decide (¬j.deleteAt ≤ now))) := by
    intro l
    induction l with
    | nil => intro a b; simp
    | cons j js ih =>
      intro a b
      by_cases hj : j.deleteAt ≤ now
      · show js.foldl _ (if now ≥ j.deleteAt then (a ++ [j], b) else (a, b ++ [j])) = _
        rw [if_pos hj, ih (a ++ [j]) b, List.filter_cons, List.filter_cons,
          if_pos (by simpa using hj), if_neg (by simpa using hj)]
        simp
      · show js.foldl _ (if now ≥ j.deleteAt then (a ++ [j], b) else (a, b ++ [j])) = _
        rw [if_neg hj, ih a (b ++ [j]), List.filter_cons, List.filter_cons,
          if_neg (by simpa using hj), if_pos (by simpa using hj)]
        simp
  show q.foldl _ ([], []) = _
  rw [key q [] []]
  simp

theorem attemptDeletions_ok (f : DeletionJob → Except String Unit) (js : List DeletionJob) :
    attemptDeletions f js = Except.ok () := by
  induction js with
  | nil => rfl
  | cons j js ih =>
    show (match deleteMessage (f j) with
      | Except.ok _ => attemptDeletions f js
      | Except.error e => Except.error e) = _
    cases hfj : f j with
    | ok u => simp [deleteMessage, hfj, ih]
    | error e => simp [deleteMessage, hfj, ih]

theorem updateDeletionsTry_ok (wf : Except String Unit) :
    updateDeletionsTry wf = Except.ok () := by
  cases wf <;> rfl

theorem handleScheduledDeletions_eq (q : List DeletionJob) (now : Int)
    (f : DeletionJob → Except String Unit) (wf : Except String Unit) :
    handleScheduledDeletions q now f wf =
      Except.ok
        ⟨q.filter (fun j => decide (j.deleteAt ≤ now)),
          if q.filter (fun j => decide (j.deleteAt ≤ now)) = [] then none
          else some (q.filter (fun j => decide (¬j.deleteAt ≤ now)))⟩ := by
  unfold handleScheduledDeletions
  by_cases hq : q = []
  · subst hq
    rw [if_pos rfl]
    rfl
  · rw [if_neg hq, sweepPartition_eq]
    by_cases hd : q.filter (fun j => decide (j.deleteAt ≤ now)) = []
    · rw [if_pos hd, if_pos hd, hd]
    · rw [if_neg hd, if_neg hd, attemptDeletions_ok, updateDeletionsTry_ok]

theorem handleFileUpload_dup {st : Option Str} {q : CsvRecord} {h : DupHit}
    (hc : checkForDuplicate st q.name q.fid = some h) :
    handleFileUpload st q = st := by
  unfold handleFileUpload
  rw [hc]

theorem handleFileUpload_fresh {st : Option Str} {q : CsvRecord}
    (hc : checkForDuplicate st q.name q.fid = none) :
    handleFileUpload st q = some (appendToCSV st q) := by
  unfold handleFileUpload
  rw [hc]

theorem acceptedFrom_nil_acc (q : CsvRecord) (qs : List CsvRecord) :
    acceptedFrom [] (q :: qs) = acceptedFrom [q] qs := by
  conv_lhs => unfold acceptedFrom
  rw [if_pos rfl]
  rfl

theorem acceptedFrom_cons_ne {acc : List CsvRecord} (hacc : acc ≠ []) (q : CsvRecord)
    (qs : List CsvRecord) :
    acceptedFrom acc (q :: qs) =
      if q.name = hdrNameTok ∨ q.fid = fileIdTok then acceptedFrom acc qs
      else if dupKeyHit acc q then acceptedFrom acc qs
      else acceptedFrom (acc ++ [q]) qs := by
  conv_lhs => unfold acceptedFrom
  rw [if_neg hacc]

theorem uploadsFrom_eq (qs : List CsvRecord) :
    ∀ acc : List CsvRecord, (∀ r ∈ acc, cleanRec r) → (∀ r ∈ qs, cleanRec r) →
      qs.foldl handleFileUpload (buildContent acc) = buildContent (acceptedFrom acc qs) := by
  induction qs with
  | nil => intro acc _ _; rfl
  | cons q qs ih =>
    intro acc hacc hqs
    have hq : cleanRec q := hqs q (List.mem_cons_self q qs)
    have hqs' : ∀ r ∈ qs, cleanRec r := fun r hr => hqs r (List.mem_cons_of_mem q hr)
    show qs.foldl handleFileUpload (handleFileUpload (buildContent acc) q) =
      buildContent (acceptedFrom acc (q :: qs))
    by_cases hacc0 : acc = []
    · subst hacc0
      have hstep : handleFileUpload (buildContent []) q = buildContent [q] := rfl
      rw [hstep, acceptedFrom_nil_acc q qs]
      exact ih [q] (by intro r hr; rw [List.mem_singleton] at hr; rwa [hr]) hqs'
    · have hchar := checkForDuplicate_canonical acc hacc q.name q.fid
      rw [if_neg hacc0] at hchar
      rw [acceptedFrom_cons_ne hacc0 q qs]
      by_cases hhdr : hdrNameTok = q.name ∨ fileIdTok = q.fid
      · rw [if_pos hhdr] at hchar
        rw [handleFileUpload_dup hchar, if_pos (hhdr.imp Eq.symm Eq.symm)]
        exact ih acc hacc hqs'
      · rw [if_neg hhdr] at hchar
        rw [if_neg (fun hh => hhdr (hh.imp Eq.symm Eq.symm))]
        by_cases hdup : dupKeyHit acc q = true
        · obtain ⟨x, hx, hpx⟩ := List.any_eq_true.mp hdup
          have hfind : ∃ y, acc.find? (fun r => r.name == q.name || r.fid == q.fid) = some y := by
            have hsome : (acc.find? (fun r => r.name == q.name || r.fid == q.fid)).isSome :=
              List.find?_isSome.mpr ⟨x, hx, hpx⟩
            cases hy : acc.find? (fun r => r.name == q.name || r.fid == q.fid) with
            | none => rw [hy] at hsome; cases hsome
            | some y => exact ⟨y, rfl⟩
          obtain ⟨y, hy⟩ := hfind
          rw [hy] at hchar
          rw [handleFileUpload_dup hchar, if_pos hdup]
          exact ih acc hacc hqs'
        · have hfind : acc.find? (fun r => r.name == q.name || r.fid == q.fid) = none := by
            rw [List.find?_eq_none]
            intro x hx hpx
            exact hdup (List.any_eq_true.mpr ⟨x, hx, hpx⟩)
          rw [hfind] at hchar
          rw [handleFileUpload_fresh hchar, if_neg (by simp [hdup]),
            ← buildContent_concat acc q]
          exact ih (acc ++ [q])
            (by
              intro r hr
              rcases List.mem_append.mp hr with hr | hr
              · exact hacc r hr
              · rw [List.mem_singleton] at hr; rwa [hr])
            hqs'

theorem uploads_eq (reqs : List CsvRecord) (hc : ∀ r ∈ reqs, cleanRec r) :
    uploads reqs = buildContent (acceptedFrom [] reqs) := by
  show reqs.foldl handleFileUpload (buildContent []) = _
  exact uploadsFrom_eq reqs [] (by intro r hr; cases hr) hc

theorem acceptedFrom_pairwise (qs : List CsvRecord) :
    ∀ acc : List CsvRecord,
      List.Pairwise (fun a b => a.name ≠ b.name ∧ a.fid ≠ b.fid) acc →
      List.Pairwise (fun a b => a.name ≠ b.name ∧ a.fid ≠ b.fid) (acceptedFrom acc qs) := by
  induction qs with
  | nil => intro acc h; exact h
  | cons q qs ih =>
    intro acc hp
    by_cases hacc0 : acc = []
    · subst hacc0
      rw [acceptedFrom_nil_acc q qs]
      exact ih [q] (by simp)
    · rw [acceptedFrom_cons_ne hacc0 q qs]
      by_cases hhdr : q.name = hdrNameTok ∨ q.fid = fileIdTok
      · rw [if_pos hhdr]
        exact ih acc hp
      · rw [if_neg hhdr]
        by_cases hdup : dupKeyHit acc q = true
        · rw [if_pos hdup]
          exact ih acc hp
        · rw [if_neg hdup]
          refine ih (acc ++ [q]) (List.pairwise_append.mpr ⟨hp, by simp, ?_⟩)
          intro a ha b hb
          rw [List.mem_singleton] at hb
          have hnot : ¬(a.name == q.name || a.fid == q.fid) = true := by
            intro hh
            exact hdup (List.any_eq_true.mpr ⟨a, ha, hh⟩)
          rw [Bool.or_eq_true, not_or, beq_iff_eq, beq_iff_eq] at hnot
          rw [hb]
          exact hnot

theorem acceptedFrom_clean (qs : List CsvRecord) :
    ∀ acc : List CsvRecord, (∀ r ∈ acc, cleanRec r) → (∀ r ∈ qs, cleanRec r) →
      ∀ r ∈ acceptedFrom acc qs, cleanRec r := by
  induction qs with
  | nil => intro acc hacc _; exact hacc
  | cons q qs ih =>
    intro acc hacc hqs
    have hq : cleanRec q := hqs q (List.mem_cons_self q qs)
    have hqs' : ∀ r ∈ qs, cleanRec r := fun r hr => hqs r (List.mem_cons_of_mem q hr)
    have haccq : ∀ r ∈ acc ++ [q], cleanRec r := by
      intro r hr
      rcases List.mem_append.mp hr with hr | hr
      · exact hacc r hr
      · rw [List.mem_singleton] at hr; rwa [hr]
    by_cases hacc0 : acc = []
    · subst hacc0
      rw [acceptedFrom_nil_acc q qs]
      exact ih [q] (by simpa using haccq) hqs'
    · rw [acceptedFrom_cons_ne hacc0 q qs]
      by_cases hhdr : q.name = hdrNameTok ∨ q.fid = fileIdTok
      · rw [if_pos hhdr]; exact ih acc hacc hqs'
      · rw [if_neg hhdr]
        by_cases hdup : dupKeyHit acc q = true
        · rw [if_pos hdup]; exact ih acc hacc hqs'
        · rw [if_neg hdup]; exact ih (acc ++ [q]) haccq hqs'

theorem map_parse_rows (rs : List CsvRecord) (hc : ∀ r ∈ rs, cleanRec r) :
    (rs.map rowOf).map
        (fun l =>
          let p := parseCSVLine l
          (⟨p.getD 0 [], p.getD 1 [], p.getD 2 [], p.getD 3 []⟩ : CsvRecord)) = rs := by
  induction rs with
  | nil => rfl
  | cons r rs ih =>
    have hcr : cleanRec r := hc r (List.mem_cons_self r rs)
    rw [List.map_cons, List.map_cons]
    have hh :
        (let p := parseCSVLine (rowOf r);
          (⟨p.getD 0 [], p.getD 1 [], p.getD 2 [], p.getD 3 []⟩ : CsvRecord)) = r := by
      show (⟨(parseCSVLine (rowOf r)).getD 0 [], (parseCSVLine (rowOf r)).getD 1 [],
        (parseCSVLine (rowOf r)).getD 2 [], (parseCSVLine (rowOf r)).getD 3 []⟩ : CsvRecord) = r
      rw [parseCSVLine_rowOf hcr]
      rfl
    rw [hh, ih (fun x hx => hc x (List.mem_cons_of_mem r hx))]

theorem storeRecords_canonical (rs : List CsvRecord) (hc : ∀ r ∈ rs, cleanRec r) :
    storeRecords (buildContent rs) = rs := by
  cases hrs : rs with
  | nil => rfl
  | cons r0 rs0 =>
    subst hrs
    obtain ⟨h1, _⟩ := buildContent_eq (r0 :: rs0) (by simp) hc
    have hmain : storeRecords (buildContent (r0 :: rs0)) =
        (((splitNl (headerLine ++ '\n' :: joinRows (r0 :: rs0))).filter
            (fun l => decide (trim l ≠ []))).drop 1).map
          (fun l =>
            let p := parseCSVLine l
            (⟨p.getD 0 [], p.getD 1 [], p.getD 2 [], p.getD 3 []⟩ : CsvRecord)) := by
      unfold storeRecords
      rw [h1]
    rw [hmain, splitNl_content _ hc, List.filter_cons, if_pos (by decide), List.filter_append,
      filter_rows_all _ hc, show ([([] : Str)].filter (fun l => decide (trim l ≠ []))) = [] by decide,
      List.append_nil, List.drop_one, List.tail_cons, map_parse_rows _ hc]

theorem pairwise_key_filter_le_one (key : CsvRecord → Str) (l : List CsvRecord)
    (h : List.Pairwise (fun a b => key a ≠ key b) l) (s : Str) :
    (l.filter (fun r => key r == s)).length ≤ 1 := by
  induction l with
  | nil => exact Nat.zero_le 1
  | cons a l ih =>
    rw [List.pairwise_cons] at h
    obtain ⟨h1, h2⟩ := h
    rw [List.filter_cons]
    by_cases hk : (key a == s) = true
    · rw [if_pos hk]
      have hnil : l.filter (fun r => key r == s) = [] := by
        rw [List.filter_eq_nil_iff]
        intro b hb
        have : key a ≠ key b := h1 b hb
        rw [beq_iff_eq] at hk
        rw [beq_iff_eq]
        intro hbs
        exact this (by rw [hk, hbs])
      rw [hnil]
      exact Nat.le_refl 1
    · rw [if_neg hk]
      exact ih h2

theorem parseAux_inquote_noquote : ∀ (s : Str) (cur : Str), '"' ∉ s →
    parseAux s true cur = [trim (cur ++ s)] := by
  intro s
  induction s with
  | nil => intro cur _; simp [parseAux_nil]
  | cons c cs ih =>
    intro cur h
    have hc : c ≠ '"' := fun hh => h (hh ▸ List.mem_cons_self c cs)
    have hcs : '"' ∉ cs := fun hh => h (List.mem_cons_of_mem c hh)
    rw [parseAux_cons_other cs cur hc (by rintro ⟨_, hh⟩; cases hh), ih (cur ++ [c]) hcs]
    simp

theorem parseAux_length_pos : ∀ (s : Str) (q : Bool) (cur : Str),
    1 ≤ (parseAux s q cur).length := by
  have key : ∀ (n : Nat) (s : Str), s.length ≤ n → ∀ (q : Bool) (cur : Str),
      1 ≤ (parseAux s q cur).length := by
    intro n
    induction n with
    | zero =>
      intro s hs q cur
      have : s = [] := List.length_eq_zero.mp (Nat.le_zero.mp hs)
      subst this
      simp [parseAux_nil]
    | succ n ihn =>
      intro s hs q cur
      match s with
      | [] => simp [parseAux_nil]
      | [c] =>
        show 1 ≤ (parseAux [c] q cur).length
        unfold parseAux
        split_ifs <;> simp
      | c1 :: c2 :: rest =>
        have hlen : rest.length + 2 ≤ n + 1 := by simpa using hs
        have h1 : rest.length ≤ n := by omega
        have h2 : (c2 :: rest).length ≤ n := by simp; omega
        show 1 ≤ (parseAux (c1 :: c2 :: rest) q cur).length
        unfold parseAux
        split_ifs with ha hb hc hd
        · exact ihn rest h1 true (cur ++ ['"'])
        · exact ihn (c2 :: rest) h2 false cur
        · exact ihn (c2 :: rest) h2 true cur
        · simp
        · exact ihn (c2 :: rest) h2 q (cur ++ [c1])
  intro s q cur
  exact key s.length s (Nat.le_refl _) q cur

theorem find?_append_none {α : Type} (p : α → Bool) {l₁ : List α} (l₂ : List α)
    (h : l₁.find? p = none) : (l₁ ++ l₂).find? p = l₂.find? p := by
  induction l₁ with
  | nil => rfl
  | cons a l ih =>
    rw [List.find?_eq_none] at h
    have ha : ¬p a = true := h a (List.mem_cons_self a l)
    rw [List.cons_append, List.find?_cons_of_neg _ ha]
    exact ih (by rw [List.find?_eq_none]; exact fun x hx => h x (List.mem_cons_of_mem a hx))

theorem foldl_snoc_map (f : Nat → Char) (l : List Nat) (a : Str) :
    l.foldl (fun acc i => acc ++ [f i]) a = a ++ l.map f := by
  induction l generalizing a with
  | nil => simp
  | cons i l ih =>
    show l.foldl _ (a ++ [f i]) = _
    rw [ih (a ++ [f i])]
    simp

theorem generateNumericalFileId_eq (r : Nat → Fin 10) :
    generateNumericalFileId r = (List.range 16).map (fun i => digitsStr.getD (r i).val ' ') := by
  unfold generateNumericalFileId generateNumericalFileIdWith
  rw [foldl_snoc_map]
  simp

theorem digitsStr_getD_isDigit : ∀ d : Fin 10, (digitsStr.getD d.val ' ').isDigit = true := by
  decide

/-- C1: for every queue and clock, the sweep writes back exactly the jobs with
`deleteAt > now` in their original order (removing exactly those with
`deleteAt ≤ now`); when zero jobs are due it performs no write at all; and a
second sweep at the same clock over the written-back queue writes nothing. -/
theorem C1_sweep_removes_due (q : List DeletionJob) (now : Int)
    (f : DeletionJob → Except String Unit) (wf : Except String Unit) :
    ∃ out : SweepOutcome,
      handleScheduledDeletions q now f wf = Except.ok out ∧
      out.written =
        (if q.filter (fun j => decide (j.deleteAt ≤ now)) = [] then none
         else some (q.filter (fun j => decide (¬j.deleteAt ≤ now)))) ∧
      ∀ p, out.written = some p →
        ∀ (f₂ : DeletionJob → Except String Unit) (wf₂ : Except String Unit),
          ∃ out₂, handleScheduledDeletions p now f₂ wf₂ = Except.ok out₂ ∧
            out₂.written = none := by
  refine ⟨_, handleScheduledDeletions_eq q now f wf, rfl, ?_⟩
  intro p hp f₂ wf₂
  by_cases hd : q.filter (fun j => decide (j.deleteAt ≤ now)) = []
  · rw [if_pos hd] at hp
    cases hp
  · rw [if_neg hd] at hp
    injection hp with hp
    refine ⟨_, handleScheduledDeletions_eq p now f₂ wf₂, ?_⟩
    have hpd : p.filter (fun j => decide (j.deleteAt ≤ now)) = [] := by
      rw [← hp, List.filter_eq_nil_iff]
      intro j hj
      have hmem := (List.mem_filter.mp hj).2
      simp only [decide_eq_true_eq] at hmem
      simp only [decide_eq_true_eq]
      exact hmem
    show (if p.filter (fun j => decide (j.deleteAt ≤ now)) = [] then none
      else some (p.filter (fun j => decide (¬j.deleteAt ≤ now)))) = none
    rw [if_pos hpd]

/-- C1 witness: a queue with one due job at `now = 10`; after the sweep the
writeback is the empty queue, and the theorem applied again to that queue
shows the second sweep writes nothing. -/
theorem C1_witness :
    ∃ out₂, handleScheduledDeletions [] (10 : Int)
        (fun _ => Except.ok ()) (Except.ok ()) = Except.ok out₂ ∧
      out₂.written = none := by
  obtain ⟨out, h1, h2, h3⟩ :=
    C1_sweep_removes_due [⟨5, 7, 10⟩] 10 (fun _ => Except.ok ()) (Except.ok ())
  have hw : out.written = some [] := by
    rw [h2]
    decide
  exact h3 [] hw (fun _ => Except.ok ()) (Except.ok ())

/-- C4: the sweep result does not depend on the per-job deletion outcomes or
on the writeback outcome (failures never block other attempts, never abort
the sweep, never prevent the writeback), the sweep never propagates an
exception, and every due job is in the attempted batch. -/
theorem C4_sweep_failure_isolation (q : List DeletionJob) (now : Int)
    (f f' : DeletionJob → Except String Unit) (wf wf' : Except String Unit) :
    handleScheduledDeletions q now f wf = handleScheduledDeletions q now f' wf' ∧
    ∃ out, handleScheduledDeletions q now f wf = Except.ok out ∧
      out.attempted = q.filter (fun j => decide (j.deleteAt ≤ now)) := by
  refine ⟨?_, _, handleScheduledDeletions_eq q now f wf, rfl⟩
  rw [handleScheduledDeletions_eq q now f wf, handleScheduledDeletions_eq q now f' wf']

/-- C8: `getFileContent` picks its route solely from the probe metadata: the
git-blob route exactly when the probe reports more than the 1 MiB ceiling,
the contents-API route otherwise; both routes return the stored bytes
unchanged. -/
theorem C8_getFileContent_routing (c : Str) :
    routeOf (some c) =
      some (if GITHUB_SIZE_LIMIT < c.length then FetchRoute.gitBlob
            else FetchRoute.contentsApi) ∧
    (getFileInfo (some c)).isLarge = decide (GITHUB_SIZE_LIMIT < (getFileInfo (some c)).size) ∧
    downloadLargeFile (some c) = some c ∧
    fetchContentsApi (some c) = some c ∧
    getFileContent (some c) = some c ∧
    ∀ st st' : Option Str, getFileInfo st = getFileInfo st' → routeOf st = routeOf st' := by
  refine ⟨?_, rfl, ?_, rfl, getFileContent_eq (some c), ?_⟩
  · by_cases h : GITHUB_SIZE_LIMIT < c.length
    · simp [routeOf, getFileInfo, h]
    · simp [routeOf, getFileInfo, h]
  · simp [downloadLargeFile, getFileInfo, fetchBlob, shaOf]
  · intro st st' h
    unfold routeOf
    rw [h]

/-- C8 witness: a two-byte store routes through the contents API and reads
back unchanged; equal probe metadata forces an equal route. -/
theorem C8_witness :
    routeOf (some (("ab").toList)) = some FetchRoute.contentsApi ∧
    getFileContent (some (("ab").toList)) = some (("ab").toList) ∧
    routeOf (some (("ab").toList)) = routeOf (some (("ab").toList)) := by
  obtain ⟨h1, _, _, _, h5, h6⟩ := C8_getFileContent_routing (("ab").toList)
  refine ⟨?_, h5, h6 (some (("ab").toList)) (some (("ab").toList)) rfl⟩
  rw [h1]
  decide

/-- C9: `parseCSVLine` is total and returns at least one field on every
input; an unterminated quote makes it consume the rest of the line into the
current field (one trimmed field, never an exception); and blank lines are
skipped by the find scan, the duplicate scan, and the line count. -/
theorem C9_parser_safety :
    (∀ l : Str, 1 ≤ (parseCSVLine l).length) ∧
    (∀ s : Str, '"' ∉ s → parseCSVLine ('"' :: s) = [trim s]) ∧
    (∀ (l : Str) (ls : List Str) (id : Str) (hs : Bool), trim l = [] →
      findLoop id (l :: ls) hs = findLoop id ls hs) ∧
    (∀ (l : Str) (ls : List Str) (nm fid : Str), trim l = [] →
      dupLoop nm fid (l :: ls) = dupLoop nm fid ls) ∧
    (∀ (l : Str) (ls : List Str), trim l = [] →
      ((l :: ls).filter (fun x => decide (trim x ≠ []))).length =
        (ls.filter (fun x => decide (trim x ≠ []))).length) := by
  refine ⟨?_, ?_, ?_, ?_, ?_⟩
  · intro l
    exact parseAux_length_pos l false []
  · intro s hs
    show parseAux ('"' :: s) false [] = [trim s]
    rw [parseAux_quote_open, parseAux_inquote_noquote s [] hs]
    simp
  · intro l ls id hs hl
    exact findLoop_blank id hl ls hs
  · intro l ls nm fid hl
    exact dupLoop_blank hl nm fid ls
  · intro l ls hl
    rw [List.filter_cons, if_neg (by simp [hl])]

/-- C9 witness: the parts of the safety statement applied at concrete
inputs, including the unterminated quote `"abc,def`. -/
theorem C9_witness :
    1 ≤ (parseCSVLine (("a,b").toList)).length ∧
    parseCSVLine ('"' :: ("abc,def").toList) = [trim (("abc,def").toList)] ∧
    findLoop (("1").toList) [(" ").toList, ("x").toList] false =
      findLoop (("1").toList) [("x").toList] false ∧
    dupLoop (("n").toList) (("f").toList) [(" ").toList] =
      dupLoop (("n").toList) (("f").toList) [] ∧
    (([(" ").toList] : List Str).filter (fun x => decide (trim x ≠ []))).length =
      (([] : List Str).filter (fun x => decide (trim x ≠ []))).length := by
  obtain ⟨p1, p2, p3, p4, p5⟩ := C9_parser_safety
  exact ⟨p1 (("a,b").toList), p2 (("abc,def").toList) (by decide),
    p3 ((" ").toList) [("x").toList] (("1").toList) false (by decide),
    p4 ((" ").toList) [] (("n").toList) (("f").toList) (by decide),
    p5 ((" ").toList) [] (by decide)⟩

/-- C10: for every sequence of random digit choices,
`generateNumericalFileId()` with its default argument returns exactly 16
characters, each a decimal digit. -/
theorem C10_generateNumericalFileId_digits (r : Nat → Fin 10) :
    (generateNumericalFileId r).length = 16 ∧
    ∀ ch ∈ generateNumericalFileId r, ch.isDigit = true := by
  constructor
  · rw [generateNumericalFileId_eq, List.length_map, List.length_range]
  · intro ch hch
    rw [generateNumericalFileId_eq] at hch
    obtain ⟨i, _, hchi⟩ := List.mem_map.mp hch
    rw [← hchi]
    exact digitsStr_getD_isDigit (r i)

/-- C10 witness: the constant all-threes oracle yields a 16-character string
whose member `'3'` is a digit. -/
theorem C10_witness :
    (generateNumericalFileId (fun _ => (3 : Fin 10))).length = 16 ∧
    Char.isDigit '3' = true := by
  obtain ⟨h1, h2⟩ := C10_generateNumericalFileId_digits (fun _ => (3 : Fin 10))
  exact ⟨h1, h2 '3' (by decide)⟩

/-- C2 counterexample: the claim fails as stated, because `checkForDuplicate`
scans the header row too.  With one appended record that matches nothing,
probing with display name `file_name` returns a hit even though no appended
record shares a field with the probe. -/
theorem C2_counterexample :
    (checkForDuplicate (buildContent dupHeaderStore) hdrNameTok (("ZZZ").toList)).isSome = true ∧
    dupHeaderStore.all
      (fun r => !(r.name == hdrNameTok || r.fid == (("ZZZ").toList))) = true := by
  decide

/-- C2 (amended): over stores built by appending records with clean fields,
and for probes that do not equal the header literals (`file_name` as the
display name, `file_id` as the external ref), `checkForDuplicate` returns a
hit if and only if some appended record matches on display name OR external
ref, and the hit is the earliest appended matching record (file order). -/
theorem C2_checkForDuplicate_spec (rs : List CsvRecord) (hclean : ∀ r ∈ rs, cleanRec r)
    (nm fid : Str) (hn : nm ≠ hdrNameTok) (hf : fid ≠ fileIdTok) :
    checkForDuplicate (buildContent rs) nm fid =
      (rs.find? (fun r => r.name == nm || r.fid == fid)).map
        (fun r => ⟨r.nid, r.name, r.fid, r.ftype⟩) := by
  rw [checkForDuplicate_canonical rs hclean nm fid]
  by_cases h0 : rs = []
  · rw [if_pos h0]
    subst h0
    rfl
  · rw [if_neg h0,
      if_neg (fun hh => hh.elim (fun h => hn h.symm) (fun h => hf h.symm))]

/-- C2 witness: two records matching the probe on different fields; the
earlier-appended one (matching on external ref) is returned. -/
theorem C2_witness :
    checkForDuplicate (buildContent dupPairStore) (("N2").toList) (("F1").toList) =
      some ⟨("1000000000000003").toList, ("N1").toList, ("F1").toList,
        ("Document").toList⟩ := by
  rw [C2_checkForDuplicate_spec dupPairStore (by decide) (("N2").toList) (("F1").toList)
    (by decide) (by decide)]
  rfl

/-- C3 counterexample: the claim fails as stated.  Two uploads whose display
name carries a leading space (` A`) both pass the duplicate check, because
the stored row parses back with the field trimmed; afterwards the store holds
two records with the same display name. -/
theorem C3_counterexample :
    ((storeRecords (uploads untrimmedReqs)).filter
      (fun r => r.name == ("A").toList)).length = 2 := by
  decide

/-- C3 (amended): for every sequence of uploads whose fields are clean (no
newline, no surrounding whitespace; id and type fields free of commas and
quotes), starting from an absent store, the store never holds two records
with the same display name nor two records with the same external file ref:
the duplicate check precedes and suppresses the append. -/
theorem C3_upload_at_most_one (reqs : List CsvRecord) (hclean : ∀ r ∈ reqs, cleanRec r)
    (s : Str) :
    ((storeRecords (uploads reqs)).filter (fun r => r.name == s)).length ≤ 1 ∧
    ((storeRecords (uploads reqs)).filter (fun r => r.fid == s)).length ≤ 1 := by
  rw [uploads_eq reqs hclean,
    storeRecords_canonical _ (acceptedFrom_clean reqs [] (by intro r hr; cases hr) hclean)]
  have hp := acceptedFrom_pairwise reqs [] List.Pairwise.nil
  constructor
  · exact pairwise_key_filter_le_one (fun r => r.name) _ (hp.imp (fun h => h.1)) s
  · exact pairwise_key_filter_le_one (fun r => r.fid) _ (hp.imp (fun h => h.2)) s

/-- C3 witness: two clean uploads sharing a display name; the store ends up
with at most one record carrying that name. -/
theorem C3_witness :
    ((storeRecords (uploads demoReqs)).filter
      (fun r => r.name == ("NameOne").toList)).length ≤ 1 :=
  (C3_upload_at_most_one demoReqs (by decide) (("NameOne").toList)).1

/-- C5: appending `exRecord` (logical id `1234567890123456`, display name
`O'Brien, "big" file.pdf`) to any clean store not containing that id and then
looking the id up returns its external ref, display name (unchanged through
the CSV escape/parse cycle) and media kind; looking up any id that was never
appended returns absent. -/
theorem C5_findById_roundtrip (rs : List CsvRecord) (hclean : ∀ r ∈ rs, cleanRec r)
    (hfresh : ∀ r ∈ rs, r.nid ≠ exRecord.nid) :
    findFileByIdStreaming (some (appendToCSV (buildContent rs) exRecord)) exRecord.nid =
      some ⟨exRecord.fid, exName, ("Document").toList⟩ ∧
    ∀ id : Str, id ≠ exRecord.nid → (∀ r ∈ rs, r.nid ≠ id) →
      findFileByIdStreaming (some (appendToCSV (buildContent rs) exRecord)) id = none := by
  have hall : ∀ r ∈ rs ++ [exRecord], cleanRec r := by
    intro r hr
    rcases List.mem_append.mp hr with hr | hr
    · exact hclean r hr
    · rw [List.mem_singleton] at hr
      rw [hr]
      decide
  have hbc : some (appendToCSV (buildContent rs) exRecord) = buildContent (rs ++ [exRecord]) :=
    (buildContent_concat rs exRecord).symm
  constructor
  · rw [hbc, findFileByIdStreaming_canonical _ hall]
    have hpre : rs.find? (fun r => r.nid == exRecord.nid) = none := by
      rw [List.find?_eq_none]
      intro x hx hpx
      exact hfresh x hx (by simpa using hpx)
    rw [find?_append_none _ _ hpre,
      List.find?_cons_of_pos _ (by simp)]
    rfl
  · intro id hid hfr
    rw [hbc, findFileByIdStreaming_canonical _ hall]
    have hnone : (rs ++ [exRecord]).find? (fun r => r.nid == id) = none := by
      rw [List.find?_eq_none]
      intro x hx hpx
      rcases List.mem_append.mp hx with hx | hx
      · exact hfr x hx (by simpa using hpx)
      · rw [List.mem_singleton] at hx
        rw [hx] at hpx
        have hx2 : exRecord.nid = id := by simpa using hpx
        exact hid hx2.symm
    rw [hnone]
    rfl

/-- C5 witness: the round trip on a store that starts absent, plus a miss
for the never-appended id `9999`. -/
theorem C5_witness :
    findFileByIdStreaming (some (appendToCSV (buildContent []) exRecord)) exRecord.nid =
      some ⟨exRecord.fid, exName, ("Document").toList⟩ ∧
    findFileByIdStreaming (some (appendToCSV (buildContent []) exRecord)) (("9999").toList) =
      none := by
  obtain ⟨h1, h2⟩ := C5_findById_roundtrip [] (by intro r hr; cases hr)
    (by intro r hr; cases hr)
  exact ⟨h1, h2 (("9999").toList) (by decide) (by intro r hr; cases hr)⟩

/-- C6 counterexample: the claim fails as stated.  One successful append of a
record whose display name contains a newline (distinctness holds trivially)
makes `count()` report 2, because the quoted field spans two physical
lines. -/
theorem C6_counterexample :
    getFileCount (buildContent [newlineNameRecord]) = 2 ∧
    [newlineNameRecord].length = 1 := by
  decide

/-- C6 (amended): for every sequence of N successful appends whose records
have pairwise distinct external refs and display names AND whose fields are
clean (in particular newline-free), starting from an absent store, `count()`
returns exactly N: the header line is never counted and the result is never
negative. -/
theorem C6_count_after_appends (rs : List CsvRecord) (hclean : ∀ r ∈ rs, cleanRec r)
    (_hnames : List.Pairwise (fun a b => a.name ≠ b.name) rs)
    (_hfids : List.Pairwise (fun a b => a.fid ≠ b.fid) rs) :
    getFileCount (buildContent rs) = rs.length :=
  getFileCount_canonical rs hclean

/-- C6 witness: two clean, distinct appends give a count of 2. -/
theorem C6_witness : getFileCount (buildContent demoStore2) = 2 :=
  C6_count_after_appends demoStore2 (by decide) (by decide) (by decide)

/-- C7 counterexample: the claim fails as stated.  On content whose first
line is `file_id`, `count()` subtracts one although the heuristic `findById`
uses (first non-empty line contains `numerical`) detects no header. -/
theorem C7_counterexample :
    ¬(getFileCount (some mixedHeaderContent) =
        nonBlankCount mixedHeaderContent -
          (if findHeaderDetect mixedHeaderContent then 1 else 0)) := by
  decide

/-- C7 (amended): `count()` subtracts one exactly when the literal first
line (the prefix before the first newline; never when no newline exists),
lowercased, contains `numerical` or `file_id` — a different heuristic from
the one `findById` uses.  The two heuristics agree whenever the content has
a newline and its first line is non-blank, free of surrounding whitespace,
and contains `file_id` only if it also contains `numerical`. -/
theorem C7_count_header_spec (c : Str) :
    getFileCount (some c) = nonBlankCount c - (if countHeaderSpec c then 1 else 0) ∧
    (hasNl c = true → trim (firstLineOf c) = firstLineOf c → firstLineOf c ≠ [] →
      (containsSub (toLowerStr (firstLineOf c)) fileIdTok = true →
        containsSub (toLowerStr (firstLineOf c)) numericalTok = true) →
      countHeaderSpec c = findHeaderDetect c) := by
  refine ⟨getFileCount_eq_spec c, ?_⟩
  intro hnl htr hne himp
  have hdetect := findHeaderDetect_first (c := c)
    (by rw [htr]; exact decide_eq_true hne)
  rw [htr] at hdetect
  unfold countHeaderSpec
  rw [hnl, Bool.true_and, hdetect]
  cases hA : containsSub (toLowerStr (firstLineOf c)) numericalTok
  · rw [Bool.false_or]
    cases hB : containsSub (toLowerStr (firstLineOf c)) fileIdTok
    · rfl
    · have := himp hB
      rw [hA] at this
      cases this
  · rw [Bool.true_or]

/-- C7 witness: on a store whose first line is the real header, the count
equation holds and the two header heuristics agree. -/
theorem C7_witness :
    getFileCount (some (headerLine ++ '\n' :: ("x").toList)) =
      nonBlankCount (headerLine ++ '\n' :: ("x").toList) -
        (if countHeaderSpec (headerLine ++ '\n' :: ("x").toList) then 1 else 0) ∧
    countHeaderSpec (headerLine ++ '\n' :: ("x").toList) =
      findHeaderDetect (headerLine ++ '\n' :: ("x").toList) := by
  obtain ⟨h1, h2⟩ := C7_count_header_spec (headerLine ++ '\n' :: ("x").toList)
  exact ⟨h1, h2 (by decide) (by decide) (by decide) (fun _ => by decide)⟩
